import Mathlib

/-!
# Verification of the Gemini Agent Workflow client

A shallow embedding of the pure logic of the workflow application:

* `src/services/geminiService.ts` — `extractThinking`, the context assembly of
  `executeWorkflowStep`, its error conversion, and the reply handling of
  `generateWorkflowPlan`;
* `src/App.tsx` — the effect-driven execution loop (`executeNextStep`) and
  `handleCreateWorkflow`, modelled as a transition system over loop states;
* `src/utils/fileUtils.ts` — `getFileCategory`;
* the workflow list component — `extractCode` and the `isPotentialReport`
  classification.

JavaScript strings are modelled as Lean `String` (a list of characters);
regular-expression operations of the source are implemented by explicit
first-occurrence searches matching the regex semantics, documented at each
definition.  External boundaries (the hosted model call, `JSON.parse`) are
parameters: the embedding covers everything the repository itself computes.
-/

namespace AgentWorkflow

/-! ## Basic character-list machinery -/

/-- Index of the first occurrence of `needle` in `hay`
(the position at which a JavaScript regex/`indexOf` search succeeds first),
`none` if there is no occurrence. -/
def firstIdx (needle : List Char) : List Char → Option Nat
  | [] => if needle.isPrefixOf [] then some 0 else none
  | c :: rest =>
    if needle.isPrefixOf (c :: rest) then some 0
    else (firstIdx needle rest).map (· + 1)

/-- Embedding of JavaScript `hay.includes(needle)` (substring test). -/
def containsB (hay needle : List Char) : Bool :=
  (firstIdx needle hay).isSome

/-- The whitespace class used by `trim`. -/
def wsChar (c : Char) : Bool := c.isWhitespace

/-- Embedding of JavaScript `String.prototype.trim`: drop leading and
trailing whitespace. -/
def trimL (l : List Char) : List Char :=
  (((l.dropWhile wsChar).reverse.dropWhile wsChar)).reverse

/-- The `trim` operation on strings. -/
def trimS (s : String) : String := ⟨trimL s.data⟩

theorem data_append : ∀ (x y : String), (x ++ y).data = x.data ++ y.data
  | ⟨_⟩, ⟨_⟩ => rfl

/-! ## `extractThinking` (src/services/geminiService.ts, lines 46–54)

The source matches `/<think>([\s\S]*?)<\/think>/`: the match starts at the
first `<think>` that is followed (anywhere later) by `</think>`, and the lazy
group ends at the first such `</think>`.  Since any `</think>` that follows a
later `<think>` also follows the first one, the match region runs from the
first `<think>` of the text to the first `</think>` after it.  On a match the
source returns the trimmed group as `thinking` and the text with the matched
region removed, trimmed, as `content`; with no match it returns `('', text)`
with `text` unchanged. -/

def thinkOpen : List Char := "<think>".data
def thinkClose : List Char := "</think>".data

/-- Embedding of `extractThinking` of src/services/geminiService.ts. -/
def extractThinking (text : String) : String × String :=
  match firstIdx thinkOpen text.data with
  | none => ("", text)
  | some i =>
    let afterOpen := text.data.drop (i + thinkOpen.length)
    match firstIdx thinkClose afterOpen with
    | none => ("", text)
    | some j =>
      (trimS ⟨afterOpen.take j⟩,
       trimS ⟨text.data.take i ++ afterOpen.drop (j + thinkClose.length)⟩)

/-- Whether the text contains a matched `<think>…</think>` pair in the sense
of the source regex: an opening tag with a closing tag somewhere after it. -/
def hasThinkPair (text : String) : Bool :=
  match firstIdx thinkOpen text.data with
  | none => false
  | some i => (firstIdx thinkClose (text.data.drop (i + thinkOpen.length))).isSome

example : extractThinking "<think>reasoning here</think>Final answer text" =
    ("reasoning here", "Final answer text") := by decide

example : extractThinking "no tags" = ("", "no tags") := by decide

example : extractThinking "<think>a" = ("", "<think>a") := by decide

example : extractThinking "<think>a</think>b<think>c</think>" =
    ("a", "b<think>c</think>") := by decide

/-! ## Positioning lemmas for `firstIdx` -/

theorem firstIdx_some_of (needle : List Char) :
    ∀ (hay : List Char) (k : Nat),
      needle.isPrefixOf (hay.drop k) = true →
      (∀ p, p < k → needle.isPrefixOf (hay.drop p) = false) →
      firstIdx needle hay = some k
  | [], k, hk, hmin => by
    have hk0 : k = 0 := by
      by_contra h
      have h1 := hmin 0 (Nat.pos_of_ne_zero h)
      simp only [List.drop_nil] at hk h1
      rw [hk] at h1
      exact Bool.noConfusion h1
    subst hk0
    simp only [List.drop_nil] at hk
    simp [firstIdx, hk]
  | c :: rest, 0, hk, _ => by
    simp only [List.drop_zero] at hk
    simp [firstIdx, hk]
  | c :: rest, k + 1, hk, hmin => by
    have h0 : needle.isPrefixOf (c :: rest) = false := by
      have := hmin 0 (Nat.succ_pos k)
      simpa using this
    have ih : firstIdx needle rest = some k := by
      apply firstIdx_some_of needle rest k
      · simpa using hk
      · intro p hp
        have := hmin (p + 1) (Nat.succ_lt_succ hp)
        simpa using this
    simp [firstIdx, h0, ih]

/-- An occurrence of `needle` strictly inside the `X` part of `X ++ needle ++ Y`
yields `needle` as an infix of `X ++ needle.dropLast`. -/
theorem infix_of_occurrence_lt {needle X Y : List Char} {p : Nat}
    (hp : p < X.length)
    (h : needle.isPrefixOf ((X ++ (needle ++ Y)).drop p) = true) :
    needle <:+: (X ++ needle.dropLast) := by
  rcases List.eq_nil_or_concat needle with hn | ⟨ini, lst, hn⟩
  · subst hn; exact List.nil_infix
  have hne : needle ≠ [] := by subst hn; simp
  set L := X ++ (needle ++ Y) with hL
  have hpre : needle <+: L.drop p := List.isPrefixOf_iff_prefix.mp h
  obtain ⟨t, ht⟩ := hpre
  -- needle is what sits at positions [p, p + |needle|) of L
  have htake : (L.drop p).take needle.length = needle := by
    rw [← ht]; exact List.take_left _ _
  have htake2 : needle = (L.take (p + needle.length)).drop p := by
    rw [List.drop_take]
    have : p + needle.length - p = needle.length := by omega
    rw [this, htake]
  have hsuff : needle <:+ L.take (p + needle.length) := by
    have h0 := List.drop_suffix p (L.take (p + needle.length))
    rw [← htake2] at h0
    exact h0
  -- that whole region is inside the first |X| + |needle| - 1 characters
  have hlen1 : 1 ≤ needle.length := by
    subst hn; simp
  have hmono : L.take (p + needle.length) <+: L.take (X.length + needle.length - 1) := by
    have : p + needle.length ≤ X.length + needle.length - 1 := by omega
    have heq : L.take (p + needle.length) =
        (L.take (X.length + needle.length - 1)).take (p + needle.length) := by
      rw [List.take_take, Nat.min_eq_left this]
    rw [heq]
    exact ⟨_, List.take_append_drop _ _⟩
  have hfront : L.take (X.length + needle.length - 1) = X ++ needle.dropLast := by
    have h1 : L = (X ++ needle) ++ Y := by rw [hL, List.append_assoc]
    have h2 : X.length + needle.length - 1 ≤ (X ++ needle).length := by
      rw [List.length_append]; omega
    rw [h1, List.take_append_of_le_length h2]
    have h3 : X.length + needle.length - 1 = X.length + (needle.length - 1) := by omega
    rw [h3, List.take_append_eq_append_take]
    have h4 : X.length + (needle.length - 1) - X.length = needle.length - 1 := by omega
    rw [h4, List.take_of_length_le (by omega), List.dropLast_eq_take]
  rw [hfront] at hmono
  exact hsuff.isInfix.trans hmono.isInfix

/-- If `needle` does not occur inside `X ++ needle.dropLast`, then its first
occurrence in `X ++ needle ++ Y` is exactly at position `X.length`. -/
theorem firstIdx_append_self {needle X Y : List Char}
    (h : ¬ needle <:+: (X ++ needle.dropLast)) :
    firstIdx needle (X ++ (needle ++ Y)) = some X.length := by
  apply firstIdx_some_of
  · rw [List.drop_left]
    exact List.isPrefixOf_iff_prefix.mpr ⟨Y, rfl⟩
  · intro p hp
    by_contra hcontra
    have htrue : needle.isPrefixOf ((X ++ (needle ++ Y)).drop p) = true := by
      cases hval : needle.isPrefixOf ((X ++ (needle ++ Y)).drop p)
      · exact absurd hval hcontra
      · rfl
    exact h (infix_of_occurrence_lt hp htrue)

/-- Computation of `extractThinking` on a text decomposed around its first
matched pair: `a` contains no opening tag (not even overlapping the real one)
and `b` contains no closing tag, so the regex match is exactly the displayed
pair. -/
theorem extractThinking_decomp (a b c : String)
    (h1 : ¬ thinkOpen <:+: (a.data ++ thinkOpen.dropLast))
    (h2 : ¬ thinkClose <:+: (b.data ++ thinkClose.dropLast)) :
    extractThinking (a ++ "<think>" ++ b ++ "</think>" ++ c) = (trimS b, trimS (a ++ c)) := by
  have hdata : (a ++ "<think>" ++ b ++ "</think>" ++ c).data
      = a.data ++ (thinkOpen ++ (b.data ++ (thinkClose ++ c.data))) := by
    simp only [data_append, List.append_assoc]
    rfl
  have hopen : firstIdx thinkOpen (a ++ "<think>" ++ b ++ "</think>" ++ c).data
      = some a.data.length := by
    rw [hdata]
    exact firstIdx_append_self h1
  have hafter : (a ++ "<think>" ++ b ++ "</think>" ++ c).data.drop
      (a.data.length + thinkOpen.length) = b.data ++ (thinkClose ++ c.data) := by
    rw [hdata, ← List.append_assoc]
    exact List.drop_left' (by rw [List.length_append])
  have hclose : firstIdx thinkClose (b.data ++ (thinkClose ++ c.data)) = some b.data.length :=
    firstIdx_append_self h2
  have htakeb : (b.data ++ (thinkClose ++ c.data)).take b.data.length = b.data :=
    List.take_left _ _
  have hdropc : (b.data ++ (thinkClose ++ c.data)).drop
      (b.data.length + thinkClose.length) = c.data := by
    rw [← List.append_assoc]
    exact List.drop_left' (by rw [List.length_append])
  have htakea : (a ++ "<think>" ++ b ++ "</think>" ++ c).data.take a.data.length = a.data := by
    rw [hdata]
    exact List.take_left _ _
  simp only [extractThinking, hopen, hafter, hclose, htakeb, hdropc, htakea, ← data_append]

/-- With no matched pair, `extractThinking` returns empty thinking and the
input unchanged (and untrimmed). -/
theorem extractThinking_no_pair (s : String) (h : hasThinkPair s = false) :
    extractThinking s = ("", s) := by
  unfold hasThinkPair at h
  unfold extractThinking
  split
  · rfl
  next i heq =>
    rw [heq] at h
    have h2 : (firstIdx thinkClose (s.data.drop (i + thinkOpen.length))).isSome = false := h
    have hnone : firstIdx thinkClose (s.data.drop (i + thinkOpen.length)) = none := by
      cases hv : firstIdx thinkClose (s.data.drop (i + thinkOpen.length))
      · rfl
      · rw [hv] at h2
        exact absurd h2 (by simp)
    simp only [hnone]

/-! ## Trimming preserves interior substrings -/

theorem infix_dropWhile_of_head {x : Char} {tl l : List Char}
    (hx : wsChar x = false) (h : (x :: tl) <:+: l) :
    (x :: tl) <:+: l.dropWhile wsChar := by
  induction l with
  | nil =>
    rw [List.infix_nil] at h
    exact absurd h (by simp)
  | cons c rest ih =>
    cases hc : wsChar c with
    | false =>
      rw [List.dropWhile_cons, hc]
      simpa using h
    | true =>
      rw [List.dropWhile_cons, hc]
      simp only [ite_true]
      rcases List.infix_cons_iff.mp h with hpre | hinf
      · obtain ⟨t, ht⟩ := hpre
        have : x = c := by
          have := congrArg (fun l => l.head?) ht
          simpa using this
        rw [this, hc] at hx
        exact Bool.noConfusion hx
      · exact ih hinf

theorem infix_trimL {x y : Char} {mid l : List Char}
    (hx : wsChar x = false) (hy : wsChar y = false)
    (h : (x :: (mid ++ [y])) <:+: l) :
    (x :: (mid ++ [y])) <:+: trimL l := by
  have step1 : (x :: (mid ++ [y])) <:+: l.dropWhile wsChar :=
    infix_dropWhile_of_head hx h
  have hrev : (x :: (mid ++ [y])).reverse = y :: (mid.reverse ++ [x]) := by
    simp
  have step2 : (y :: (mid.reverse ++ [x])) <:+: (l.dropWhile wsChar).reverse := by
    rw [← hrev]
    exact List.reverse_infix.mpr step1
  have step3 : (y :: (mid.reverse ++ [x])) <:+: ((l.dropWhile wsChar).reverse.dropWhile wsChar) :=
    infix_dropWhile_of_head hy step2
  have step4 := List.reverse_infix.mpr step3
  rw [← hrev] at step4
  simpa [trimL] using step4

/-! ## Data model (src/types.ts)

`WorkflowStep` carries an opaque random `id` in the source, used only to route
positional updates (`prev.map(s => s.id === nextStep.id ? … : s)`); with the
ids distinct this is an update at the step's position, so the embedding
identifies steps by their list position and drops the `id` field. -/

inductive StepStatus where
  | PENDING
  | PROCESSING
  | COMPLETED
  | FAILED
deriving DecidableEq, Repr

structure WorkflowStep where
  description : String
  status : StepStatus
  result : Option String
  thinking : Option String
deriving DecidableEq, Repr

/-! ## Context assembly of `executeWorkflowStep`
(src/services/geminiService.ts, lines 111–115)

```
const historyContext = previousSteps
  .filter(s => s.status === StepStatus.COMPLETED && s.result)
  .map(s => `PREVIOUS STEP: "${s.description}"\nRESULT: ${s.result}\n`)
  .join('\n---\n');
```
-/

/-- JavaScript `Array.prototype.join` with a separator. -/
def joinSep (sep : List Char) : List (List Char) → List Char
  | [] => []
  | [x] => x
  | x :: y :: rest => x ++ sep ++ joinSep sep (y :: rest)

/-- The filter of the source: completed steps with a truthy (non-empty)
result string. -/
def keepStep (s : WorkflowStep) : Bool :=
  decide (s.status = StepStatus.COMPLETED) &&
    (match s.result with
     | none => false
     | some r => !(decide (r = "")))

/-- One history entry: `PREVIOUS STEP: "<description>"\nRESULT: <result>\n`. -/
def stepEntry (s : WorkflowStep) : String :=
  "PREVIOUS STEP: \"" ++ s.description ++ "\"\nRESULT: " ++ s.result.getD "" ++ "\n"

/-- The `historyContext` string of `executeWorkflowStep`. -/
def historyContext (previousSteps : List WorkflowStep) : String :=
  ⟨joinSep "\n---\n".data ((previousSteps.filter keepStep).map (fun s => (stepEntry s).data))⟩

theorem infix_joinSep (sep : List Char) :
    ∀ (L : List (List Char)) (x : List Char), x ∈ L → x <:+: joinSep sep L
  | [], x, hx => absurd hx (by simp)
  | [a], x, hx => by
    have : x = a := by simpa using hx
    subst this
    exact List.infix_refl _
  | a :: b :: rest, x, hx => by
    rcases List.mem_cons.mp hx with h | h
    · subst h
      show x <:+: x ++ sep ++ joinSep sep (b :: rest)
      exact ⟨[], sep ++ joinSep sep (b :: rest), by simp⟩
    · have ih := infix_joinSep sep (b :: rest) x h
      show x <:+: a ++ sep ++ joinSep sep (b :: rest)
      have : joinSep sep (b :: rest) <:+ a ++ sep ++ joinSep sep (b :: rest) := by
        rw [List.append_assoc]
        exact ⟨a ++ sep, by simp⟩
      exact ih.trans this.isInfix

theorem joinSep_append (sep : List Char) :
    ∀ (L₁ L₂ : List (List Char)), L₁ ≠ [] → L₂ ≠ [] →
      joinSep sep (L₁ ++ L₂) = joinSep sep L₁ ++ sep ++ joinSep sep L₂
  | [], _, h1, _ => absurd rfl h1
  | [a], L₂, _, h2 => by
    cases L₂ with
    | nil => exact absurd rfl h2
    | cons b rest => rfl
  | a :: a' :: restA, L₂, _, h2 => by
    have ih := joinSep_append sep (a' :: restA) L₂ (by simp) h2
    show a ++ sep ++ joinSep sep ((a' :: restA) ++ L₂) = _
    rw [ih]
    show _ = (a ++ sep ++ joinSep sep (a' :: restA)) ++ sep ++ joinSep sep L₂
    simp [List.append_assoc]

/-! ## Step execution result (src/services/geminiService.ts, lines 151–189)

`executeWorkflowStep` streams the model reply into `fullResponse`, then splits
it with `extractThinking` and returns `{ result: content, thinking }`.  Its
`try/catch` spans the whole call: on any transport or model error it returns
`{ result: "Error executing step: " + message, thinking: "" }` as a normal
value — it never rethrows.  The outcome of the external model call is the
`Except` parameter. -/

def executeWorkflowStepResult (modelOutcome : Except String String) : String × String :=
  match modelOutcome with
  | Except.ok fullResponse =>
    ((extractThinking fullResponse).2, (extractThinking fullResponse).1)
  | Except.error msg => ("Error executing step: " ++ msg, "")

/-! ## Plan reply handling (src/services/geminiService.ts, lines 87–100)

The source matches `/\[[\s\S]*\]/` against the reply: the leftmost match of
this greedy pattern runs from the first `'['` of the reply to the last `']'`,
provided the latter comes after the former; otherwise there is no match.  With
no match it logs and returns `["Failed to generate plan."]`; with a match it
runs `JSON.parse` on the matched substring inside the `try`, whose `catch`
rethrows — so a parse failure propagates to the caller.  `JSON.parse` is an
external library call, passed in as the `parseJson` parameter. -/

def extractArrayLit (response : String) : Option String :=
  match firstIdx ['['] response.data with
  | none => none
  | some i =>
    match firstIdx [']'] response.data.reverse with
    | none => none
    | some k =>
      let j := response.data.length - 1 - k
      if i < j then some ⟨(response.data.take (j + 1)).drop i⟩ else none

def fallbackPlan : List String := ["Failed to generate plan."]

def generateWorkflowPlanPost (parseJson : String → Except String (List String))
    (response : String) : Except String (List String) :=
  match extractArrayLit response with
  | none => Except.ok fallbackPlan
  | some jsonText => parseJson jsonText

/-- Behaviour of `generateWorkflowPlan` around the model call: the call either rejects
(`chatOutcome = .error`) — the `catch` rethrows it — or yields the reply
text, which is then post-processed. -/
def generateWorkflowPlanModel (chatOutcome : Except String String)
    (parseJson : String → Except String (List String)) : Except String (List String) :=
  match chatOutcome with
  | Except.error e => Except.error e
  | Except.ok response => generateWorkflowPlanPost parseJson response

/-! ## `handleCreateWorkflow` (src/App.tsx, lines 68–93)

Clears the error and the step list, then awaits the plan.  On success it
creates one `PENDING` step per description and sets `isExecuting`; on a
thrown error it records the user-visible message, leaves the (cleared) step
list empty, and stays out of execution. -/

structure CreateResult where
  workflowSteps : List WorkflowStep
  isAnalyzing : Bool
  isExecuting : Bool
  errorMsg : Option String
deriving DecidableEq, Repr

def planErrorMessage : String :=
  "Failed to generate a workflow. Please check your API key or try again."

def handleCreateWorkflow (planOutcome : Except String (List String)) : CreateResult :=
  match planOutcome with
  | Except.ok planStrings =>
    ⟨planStrings.map (fun desc => ⟨desc, StepStatus.PENDING, none, none⟩),
     false, true, none⟩
  | Except.error _ => ⟨[], false, false, some planErrorMessage⟩

/-! ## File classification (src/utils/fileUtils.ts, lines 12–28) -/

/-- Embedding of JavaScript `String.prototype.split('.')`. -/
def splitOnDot : List Char → List (List Char)
  | [] => [[]]
  | c :: rest =>
    let r := splitOnDot rest
    if c = '.' then [] :: r
    else
      match r with
      | [] => [[c]]
      | h :: t => (c :: h) :: t

/-- Embedding of JavaScript `String.prototype.toLowerCase` (ASCII). -/
def lowerStr (s : String) : String := ⟨s.data.map Char.toLower⟩

/-- Embedding of JavaScript `hay.includes(needle)` on strings. -/
def containsStr (hay needle : String) : Bool := containsB hay.data needle.data

/-- Embedding of JavaScript `s.startsWith(pre)`. -/
def startsWithStr (s pre : String) : Bool := pre.data.isPrefixOf s.data

/-- Computes `filename.split('.').pop()?.toLowerCase()` — `pop` never yields
`undefined` since `split` returns at least one element. -/
def getExt (filename : String) : String :=
  lowerStr ⟨(splitOnDot filename.data).getLastD []⟩

def codeExts : List String :=
  ["py", "js", "ts", "tsx", "c", "cpp", "h", "java", "go", "rs", "html", "css", "json", "md"]

def docExts : List String := ["doc", "docx", "ppt", "pptx", "txt"]

/-- Embedding of `getFileCategory` of src/utils/fileUtils.ts. -/
def getFileCategory (filename type : String) : String :=
  let ext := getExt filename
  if codeExts.contains ext then "code"
  else if decide (type = "application/pdf") || decide (ext = "pdf") then "pdf"
  else if startsWithStr type "image/" then "image"
  else if docExts.contains ext || containsStr type "text" || containsStr type "document"
    then "document"
  else "unknown"

example : getFileCategory "main.cpp" "image/png" = "code" := by decide

example : getFileCategory "report.docx"
    "application/vnd.openxmlformats-officedocument.wordprocessingml.document" = "document" := by
  decide

/-! ## Code block extraction and report classification
(workflow list component, `extractCode` and `isPotentialReport`)

`extractCode` matches ```` /```(\w+)?\n([\s\S]*?)```/ ````: the engine scans
positions left to right; at a position starting with three backticks it takes
the maximal run of word characters, requires a newline immediately after it
(no shorter run can succeed, since word characters are never `'\n'`), then the
lazy body ends at the next three backticks; if no closing fence follows, the
position fails and the scan resumes one character further on. -/

structure CodeData where
  language : String
  code : String
deriving DecidableEq, Repr

/-- The `\w` character class: `[A-Za-z0-9_]`. -/
def isWordChar (c : Char) : Bool := c.isAlphanum || c = '_'

def extractCodeAux : List Char → Option (List Char × List Char)
  | [] => none
  | c :: rest =>
    if "```".data.isPrefixOf (c :: rest) then
      let after := (c :: rest).drop 3
      let w := after.takeWhile isWordChar
      match after.drop w.length with
      | '\n' :: body =>
        match firstIdx "```".data body with
        | some r => some (w, body.take r)
        | none => extractCodeAux rest
      | _ => extractCodeAux rest
    else extractCodeAux rest

/-- Embedding of `extractCode` of the workflow list component; `match[1] || 'txt'` makes
the language default to `txt` when the optional group is absent. -/
def extractCode (markdown : String) : Option CodeData :=
  (extractCodeAux markdown.data).map (fun p =>
    ⟨if p.1.isEmpty then "txt" else ⟨p.1⟩, ⟨p.2⟩⟩)

/-- Computes `step.result ? extractCode(step.result) : null` — the empty string is
falsy in JavaScript. -/
def stepCodeData (step : WorkflowStep) : Option CodeData :=
  match step.result with
  | none => none
  | some r => if r = "" then none else extractCode r

/-- Embedding of `isPotentialReport` of the workflow list component.  The final JavaScript
disjunct `step.result && step.result.length > 500` is truthy exactly when a
non-empty result longer than 500 characters is present. -/
def isPotentialReport (step : WorkflowStep) : Bool :=
  (stepCodeData step).isNone && decide (step.status = StepStatus.COMPLETED) &&
    (containsStr (lowerStr step.description) "report" ||
     containsStr (lowerStr step.description) "document" ||
     containsStr (lowerStr step.description) "write" ||
     containsStr (lowerStr step.description) "summar" ||
     (match step.result with
      | none => false
      | some r => !(decide (r = "")) && decide (r.length > 500)))

example : extractCode "```python\nprint(1)\n```" = some ⟨"python", "print(1)\n"⟩ := by decide

example : extractCode "no code" = none := by decide

/-! ## The execution loop (src/App.tsx, lines 19–66)

The auto-executor is a `useEffect` keyed on `[workflowSteps,
agentState.isExecuting, files]`.  Every commit of those states re-runs the
effect; each run executes `executeNextStep`, whose synchronous prefix finds
the first `PENDING` step, marks it `PROCESSING`, records it as current and
launches the (asynchronous) model call; when a launched call settles, its
continuation marks the step `COMPLETED` (storing result and thinking) or, if
the awaited promise rejected, marks it `FAILED` with result
`"Failed to execute step."` and clears `isExecuting`.

This is modelled as a transition system: a `fire` event is one effect run up
to its `await`, and a `finish i` event is the continuation of the call
launched for step `i`.  Runs are arbitrary interleavings of these events;
the set of reachable states over-approximates the states the browser can
reach, and contains every state it does reach (React re-runs the effect
after every state commit, in particular right after a step is marked
`PROCESSING`, while the launched call is still in flight).  The settlement
of step `i`'s call is the oracle value `callOracle i`: `resolved r t` for a
promise fulfilled with `{ result: r, thinking: t }`, `rejected` for a
rejected promise. -/

inductive CallOutcome where
  | resolved (result thinking : String)
  | rejected
deriving DecidableEq, Repr

inductive LoopEvent where
  | fire
  | finish (i : Nat)
deriving DecidableEq, Repr

structure LoopState where
  steps : List WorkflowStep
  isExecuting : Bool
  currentStepId : Option Nat
  inflight : List Nat
deriving DecidableEq, Repr

/-- Positional update, the effect of `prev.map(s => s.id === nextStep.id ?
{...s, …} : s)` under distinct ids. -/
def updateAt (f : WorkflowStep → WorkflowStep) : Nat → List WorkflowStep → List WorkflowStep
  | _, [] => []
  | 0, s :: rest => f s :: rest
  | k + 1, s :: rest => s :: updateAt f k rest

/-- Embedding of `Array.prototype.findIndex`, returning an option. -/
def findIdxP (p : WorkflowStep → Bool) : List WorkflowStep → Option Nat
  | [] => none
  | s :: rest =>
    match p s with
    | true => some 0
    | false => (findIdxP p rest).map (· + 1)

def isPending (s : WorkflowStep) : Bool := decide (s.status = StepStatus.PENDING)

def markProcessing (s : WorkflowStep) : WorkflowStep :=
  ⟨s.description, StepStatus.PROCESSING, s.result, s.thinking⟩

def markCompleted (r t : String) (s : WorkflowStep) : WorkflowStep :=
  ⟨s.description, StepStatus.COMPLETED, some r, some t⟩

def markFailed (s : WorkflowStep) : WorkflowStep :=
  ⟨s.description, StepStatus.FAILED, some "Failed to execute step.", s.thinking⟩

def stepEv (callOracle : Nat → CallOutcome) (st : LoopState) : LoopEvent → LoopState
  | LoopEvent.fire =>
    if st.isExecuting then
      match findIdxP isPending st.steps with
      | none => ⟨st.steps, false, none, st.inflight⟩
      | some i =>
        ⟨updateAt markProcessing i st.steps, st.isExecuting, some i, st.inflight ++ [i]⟩
    else st
  | LoopEvent.finish i =>
    if st.inflight.contains i then
      let remaining := st.inflight.filter (fun m => !(decide (m = i)))
      match callOracle i with
      | CallOutcome.resolved r t =>
        ⟨updateAt (markCompleted r t) i st.steps, st.isExecuting, st.currentStepId, remaining⟩
      | CallOutcome.rejected =>
        ⟨updateAt markFailed i st.steps, false, st.currentStepId, remaining⟩
    else st

def runEvents (callOracle : Nat → CallOutcome) (st : LoopState) (evs : List LoopEvent) :
    LoopState :=
  evs.foldl (stepEv callOracle) st

/-- The state right after `handleCreateWorkflow` succeeds: one `PENDING` step
per plan string, `isExecuting` set. -/
def initLoop (planStrings : List String) : LoopState :=
  ⟨planStrings.map (fun desc => ⟨desc, StepStatus.PENDING, none, none⟩), true, none, []⟩

def statusAt (st : LoopState) (i : Nat) : Option StepStatus :=
  (st.steps.get? i).map WorkflowStep.status

def resultAt (st : LoopState) (i : Nat) : Option (Option String) :=
  (st.steps.get? i).map WorkflowStep.result

def thinkingAt (st : LoopState) (i : Nat) : Option (Option String) :=
  (st.steps.get? i).map WorkflowStep.thinking

example :
    statusAt (runEvents (fun _ => CallOutcome.resolved "r" "t") (initLoop ["a", "b"])
      [LoopEvent.fire, LoopEvent.fire]) 0 = some StepStatus.PROCESSING := by decide

example :
    statusAt (runEvents (fun _ => CallOutcome.rejected) (initLoop ["a", "b"])
      [LoopEvent.fire, LoopEvent.finish 0]) 0 = some StepStatus.FAILED := by decide

/-! ## Loop invariants -/

theorem get?_updateAt_eq (f : WorkflowStep → WorkflowStep) :
    ∀ (l : List WorkflowStep) (i : Nat), (updateAt f i l).get? i = (l.get? i).map f
  | [], _ => by simp [updateAt]
  | s :: rest, 0 => rfl
  | s :: rest, i + 1 => get?_updateAt_eq f rest i

theorem get?_updateAt_ne (f : WorkflowStep → WorkflowStep) :
    ∀ (l : List WorkflowStep) (i j : Nat), j ≠ i → (updateAt f i l).get? j = l.get? j
  | [], _, _, _ => by simp [updateAt]
  | s :: rest, 0, 0, h => absurd rfl h
  | s :: rest, 0, j + 1, _ => rfl
  | s :: rest, i + 1, 0, _ => rfl
  | s :: rest, i + 1, j + 1, h =>
    get?_updateAt_ne f rest i j (fun hji => h (by rw [hji]))

theorem findIdxP_some (p : WorkflowStep → Bool) :
    ∀ (l : List WorkflowStep) (i : Nat), findIdxP p l = some i →
      ∃ s, l.get? i = some s ∧ p s = true
  | [], i, h => by simp [findIdxP] at h
  | s :: rest, i, h => by
    cases hp : p s with
    | true =>
      simp only [findIdxP, hp] at h
      cases h
      exact ⟨s, rfl, hp⟩
    | false =>
      simp only [findIdxP, hp] at h
      cases hrest : findIdxP p rest with
      | none =>
        rw [hrest] at h
        simp at h
      | some i' =>
        rw [hrest] at h
        simp only [Option.map_some'] at h
        cases h
        obtain ⟨t, ht, hpt⟩ := findIdxP_some p rest i' hrest
        exact ⟨t, ht, hpt⟩

/-- While executing, no step has failed (the failure continuation always
clears `isExecuting` in the same commit in which it marks the step
`FAILED`). -/
def InvFail (st : LoopState) : Prop :=
  st.isExecuting = true → ∀ i, statusAt st i ≠ some StepStatus.FAILED

/-- Every in-flight step is `PROCESSING`. -/
def InvInflight (st : LoopState) : Prop :=
  ∀ i, i ∈ st.inflight → statusAt st i = some StepStatus.PROCESSING

def LoopInv (st : LoopState) : Prop := InvFail st ∧ InvInflight st

theorem loopInv_init (planStrings : List String) : LoopInv (initLoop planStrings) := by
  constructor
  · intro _ i h
    simp only [initLoop, statusAt, List.get?_map] at h
    cases hd : (planStrings.get? i) with
    | none => rw [hd] at h; simp at h
    | some d => rw [hd] at h; simp at h
  · intro i h
    simp [initLoop] at h

theorem loopInv_step (callOracle : Nat → CallOutcome) (st : LoopState) (e : LoopEvent)
    (h : LoopInv st) : LoopInv (stepEv callOracle st e) := by
  obtain ⟨hFail, hInflight⟩ := h
  cases e with
  | fire =>
    cases hexec : st.isExecuting with
    | false =>
      simp only [stepEv, hexec, if_false]
      exact ⟨hFail, hInflight⟩
    | true =>
      simp only [stepEv, hexec, if_true]
      cases hfind : findIdxP isPending st.steps with
      | none =>
        refine ⟨fun hcontra _ => by simp at hcontra, ?_⟩
        intro i hi
        exact hInflight i hi
      | some i =>
        obtain ⟨s, hs, hps⟩ := findIdxP_some isPending st.steps i hfind
        have hpend : s.status = StepStatus.PENDING := of_decide_eq_true hps
        constructor
        · intro _ k
          simp only [statusAt]
          by_cases hk : k = i
          · subst hk
            rw [get?_updateAt_eq, hs]
            simp [markProcessing]
          · rw [get?_updateAt_ne _ _ _ _ hk]
            exact hFail hexec k
        · intro m hm
          simp only [List.mem_append, List.mem_singleton] at hm
          rcases hm with hm | hm
          · have hold := hInflight m hm
            have hmne : m ≠ i := by
              intro hmi
              subst hmi
              simp only [statusAt, hs, Option.map_some'] at hold
              have hstat : s.status = StepStatus.PROCESSING := Option.some.inj hold
              rw [hpend] at hstat
              exact StepStatus.noConfusion hstat
            simp only [statusAt]
            rw [get?_updateAt_ne _ _ _ _ hmne]
            exact hInflight m hm
          · subst hm
            simp only [statusAt]
            rw [get?_updateAt_eq, hs]
            simp [markProcessing]
  | finish i =>
    cases hmem : st.inflight.contains i with
    | false =>
      simp only [stepEv, hmem, Bool.false_eq_true, if_false]
      exact ⟨hFail, hInflight⟩
    | true =>
      simp only [stepEv, hmem, if_true]
      cases horacle : callOracle i with
      | resolved r t =>
        constructor
        · intro hexec k
          simp only [statusAt]
          by_cases hk : k = i
          · subst hk
            rw [get?_updateAt_eq]
            cases hd : st.steps.get? k with
            | none => simp
            | some s => simp [markCompleted]
          · rw [get?_updateAt_ne _ _ _ _ hk]
            exact hFail hexec k
        · intro m hm
          simp only [List.mem_filter] at hm
          obtain ⟨hm1, hm2⟩ := hm
          have hmne : m ≠ i := by
            intro hmi
            rw [hmi] at hm2
            simp at hm2
          simp only [statusAt]
          rw [get?_updateAt_ne _ _ _ _ hmne]
          exact hInflight m hm1
      | rejected =>
        constructor
        · intro hcontra
          simp at hcontra
        · intro m hm
          simp only [List.mem_filter] at hm
          obtain ⟨hm1, hm2⟩ := hm
          have hmne : m ≠ i := by
            intro hmi
            rw [hmi] at hm2
            simp at hm2
          simp only [statusAt]
          rw [get?_updateAt_ne _ _ _ _ hmne]
          exact hInflight m hm1

theorem loopInv_run (callOracle : Nat → CallOutcome) :
    ∀ (evs : List LoopEvent) (st : LoopState), LoopInv st → LoopInv (runEvents callOracle st evs)
  | [], st, h => h
  | e :: evs, st, h =>
    loopInv_run callOracle evs (stepEv callOracle st e) (loopInv_step callOracle st e h)

/-- Once the loop has stopped (`isExecuting = false`), a step that is still
`PENDING` stays `PENDING` under every further event: effect runs are no-ops,
and settling continuations only touch in-flight (`PROCESSING`) steps. -/
theorem pending_stays_pending (callOracle : Nat → CallOutcome) :
    ∀ (evs : List LoopEvent) (st : LoopState) (j : Nat),
      st.isExecuting = false → InvInflight st → statusAt st j = some StepStatus.PENDING →
      statusAt (runEvents callOracle st evs) j = some StepStatus.PENDING
  | [], _, _, _, _, hj => hj
  | e :: evs, st, j, hexec, hinf, hj => by
    have hstep : stepEv callOracle st e = st ∨
        ((stepEv callOracle st e).isExecuting = false ∧
         InvInflight (stepEv callOracle st e) ∧
         statusAt (stepEv callOracle st e) j = some StepStatus.PENDING) := by
      cases e with
      | fire =>
        left
        simp [stepEv, hexec]
      | finish i =>
        cases hmem : st.inflight.contains i with
        | false =>
          left
          simp only [stepEv, hmem, Bool.false_eq_true, if_false]
        | true =>
          right
          have himem : i ∈ st.inflight := List.mem_of_elem_eq_true hmem
          have hproc := hinf i himem
          have hij : j ≠ i := by
            intro hji
            rw [hji, hproc] at hj
            cases hj
          simp only [stepEv, hmem, if_true]
          cases horacle : callOracle i with
          | resolved r t =>
            refine ⟨hexec, ?_, ?_⟩
            · intro m hm
              simp only [List.mem_filter] at hm
              obtain ⟨hm1, hm2⟩ := hm
              have hmne : m ≠ i := by
                intro hmi
                rw [hmi] at hm2
                simp at hm2
              simp only [statusAt]
              rw [get?_updateAt_ne _ _ _ _ hmne]
              exact hinf m hm1
            · simp only [statusAt]
              rw [get?_updateAt_ne _ _ _ _ hij]
              exact hj
          | rejected =>
            refine ⟨rfl, ?_, ?_⟩
            · intro m hm
              simp only [List.mem_filter] at hm
              obtain ⟨hm1, hm2⟩ := hm
              have hmne : m ≠ i := by
                intro hmi
                rw [hmi] at hm2
                simp at hm2
              simp only [statusAt]
              rw [get?_updateAt_ne _ _ _ _ hmne]
              exact hinf m hm1
            · simp only [statusAt]
              rw [get?_updateAt_ne _ _ _ _ hij]
              exact hj
    rcases hstep with heq | ⟨h1, h2, h3⟩
    · show statusAt (runEvents callOracle (stepEv callOracle st e) evs) j = _
      rw [heq]
      exact pending_stays_pending callOracle evs st j hexec hinf hj
    · exact pending_stays_pending callOracle evs (stepEv callOracle st e) j h1 h2 h3

/-! ## Claim theorems -/

/-- C1: a transport/model error during a step's call is caught inside
`executeWorkflowStep` and converted into a synthetic result (empty thinking,
explicit error message) — but because that synthetic result is returned as a
*normal* value, the loop's success continuation runs: the step is marked
`COMPLETED` (not `FAILED`), `isExecuting` stays set, and the next step is
launched.  This exhibits the divergence from the claim at the concrete run in
which the model call of step 0 rejects with "network down". -/
theorem modelError_marks_step_completed :
    (∀ msg : String,
      executeWorkflowStepResult (Except.error msg) = ("Error executing step: " ++ msg, "")) ∧
    (let model : Nat → Except String String := fun _ => Except.error "network down"
     let callOracle : Nat → CallOutcome := fun i =>
       CallOutcome.resolved (executeWorkflowStepResult (model i)).1
         (executeWorkflowStepResult (model i)).2
     let s := runEvents callOracle (initLoop ["Analyze the code", "Fix the bug"])
       [LoopEvent.fire, LoopEvent.finish 0, LoopEvent.fire]
     statusAt s 0 = some StepStatus.COMPLETED ∧
     resultAt s 0 = some (some "Error executing step: network down") ∧
     thinkingAt s 0 = some (some "") ∧
     s.isExecuting = true ∧
     statusAt s 1 = some StepStatus.PROCESSING) := by
  constructor
  · intro msg
    rfl
  · decide

/-- C2: the effect re-fires after the commit that marks step 0 `PROCESSING`,
and the re-fired run selects step 1 — the first `PENDING` step — while step 0
is still `PROCESSING`: after two effect runs both steps of a two-step plan
are `PROCESSING` simultaneously, refuting strict sequentiality. -/
theorem loop_processes_steps_concurrently :
    (let s := runEvents (fun _ => CallOutcome.resolved "done" "") (initLoop ["first", "second"])
       [LoopEvent.fire, LoopEvent.fire]
     statusAt s 0 = some StepStatus.PROCESSING ∧
     statusAt s 1 = some StepStatus.PROCESSING) := by
  decide

/-- C3: in a single run (any trace from the post-plan initial state), once
some step is `FAILED`, every step that is then still `PENDING` remains
`PENDING` under every continuation of the run: the failure branch clears
`isExecuting`, making all further effect runs no-ops, and settling calls only
touch `PROCESSING` steps.  Quantifying over all continuations `tr₂` covers
every intermediate point of the run. -/
theorem halt_on_failure (callOracle : Nat → CallOutcome) (planStrings : List String)
    (tr₁ tr₂ : List LoopEvent) (i j : Nat)
    (hFail : statusAt (runEvents callOracle (initLoop planStrings) tr₁) i
      = some StepStatus.FAILED)
    (hPend : statusAt (runEvents callOracle (initLoop planStrings) tr₁) j
      = some StepStatus.PENDING) :
    statusAt (runEvents callOracle (runEvents callOracle (initLoop planStrings) tr₁) tr₂) j
      = some StepStatus.PENDING := by
  have hinv : LoopInv (runEvents callOracle (initLoop planStrings) tr₁) :=
    loopInv_run callOracle tr₁ (initLoop planStrings) (loopInv_init planStrings)
  have hexec : (runEvents callOracle (initLoop planStrings) tr₁).isExecuting = false := by
    cases hb : (runEvents callOracle (initLoop planStrings) tr₁).isExecuting with
    | false => rfl
    | true => exact absurd hFail (hinv.1 hb i)
  exact pending_stays_pending callOracle tr₂ _ j hexec hinv.2 hPend

/-- Witness for C3: step 0 of a two-step plan fails; step 1, still pending,
is still pending after two further effect runs. -/
theorem halt_on_failure_witness :
    statusAt (runEvents (fun _ => CallOutcome.rejected)
      (runEvents (fun _ => CallOutcome.rejected) (initLoop ["a", "b"])
        [LoopEvent.fire, LoopEvent.finish 0])
      [LoopEvent.fire, LoopEvent.fire]) 1 = some StepStatus.PENDING :=
  halt_on_failure (fun _ => CallOutcome.rejected) ["a", "b"]
    [LoopEvent.fire, LoopEvent.finish 0] [LoopEvent.fire, LoopEvent.fire] 0 1
    (by decide) (by decide)

/-- C4: for a text containing a matched pair — written `a ++ "<think>" ++ b ++
"</think>" ++ c` with `a` free of opening tags and `b` free of closing tags,
so the displayed pair is the regex match — the split returns the text
strictly between the delimiters, trimmed, as thinking, and the text with the
delimited region removed, trimmed, as content; the spec's concrete example
evaluates accordingly; and any text without a matched pair returns empty
thinking and the entire input unchanged. -/
theorem extractThinking_split :
    (∀ (a b c : String),
      ¬ thinkOpen <:+: (a.data ++ thinkOpen.dropLast) →
      ¬ thinkClose <:+: (b.data ++ thinkClose.dropLast) →
      extractThinking (a ++ "<think>" ++ b ++ "</think>" ++ c) = (trimS b, trimS (a ++ c))) ∧
    extractThinking "<think>reasoning here</think>Final answer text"
      = ("reasoning here", "Final answer text") ∧
    (∀ s : String, hasThinkPair s = false → extractThinking s = ("", s)) :=
  ⟨extractThinking_decomp, by decide, extractThinking_no_pair⟩

/-- Witness for C4: the two hypothetical parts applied at concrete inputs. -/
theorem extractThinking_split_witness :
    extractThinking ("Intro " ++ "<think>" ++ " why " ++ "</think>" ++ " done")
      = (trimS " why ", trimS ("Intro " ++ " done")) ∧
    extractThinking "plain text" = ("", "plain text") :=
  ⟨extractThinking_split.1 "Intro " " why " " done" (by decide) (by decide),
   extractThinking_split.2.2 "plain text" (by decide)⟩

/-- C10: the split removes exactly the first matched pair — any further
`<think>…</think>` pair, which lies in the region `c` after the first
closing tag, survives verbatim (delimiters included) as an infix of the
returned content (trimming only strips outer whitespace, and the pair starts
with `<` and ends with `>`); and for a text whose first opening tag has no
closing tag after it (hence no pair at all), the thinking trace is empty and
the whole input, unmatched delimiter included, stays in the content. -/
theorem extractThinking_removes_first_pair_only :
    (∀ (a b c d : String),
      ¬ thinkOpen <:+: (a.data ++ thinkOpen.dropLast) →
      ¬ thinkClose <:+: (b.data ++ thinkClose.dropLast) →
      (thinkOpen ++ d.data ++ thinkClose) <:+: c.data →
      (thinkOpen ++ d.data ++ thinkClose) <:+:
        (extractThinking (a ++ "<think>" ++ b ++ "</think>" ++ c)).2.data) ∧
    (∀ (s : String) (i : Nat), firstIdx thinkOpen s.data = some i →
      firstIdx thinkClose (s.data.drop (i + thinkOpen.length)) = none →
      extractThinking s = ("", s)) := by
  constructor
  · intro a b c d h1 h2 hd
    rw [extractThinking_decomp a b c h1 h2]
    have hac : (thinkOpen ++ d.data ++ thinkClose) <:+: (a ++ c).data := by
      have hsuf : c.data <:+ (a ++ c).data := by
        rw [data_append]
        exact ⟨a.data, rfl⟩
      exact hd.trans hsuf.isInfix
    have hshape : thinkOpen ++ d.data ++ thinkClose
        = '<' :: (("think>".data ++ d.data ++ "</think".data) ++ ['>']) := by
      have ho : thinkOpen = '<' :: "think>".data := by decide
      have hc : thinkClose = "</think".data ++ ['>'] := by decide
      rw [ho, hc]
      simp
    rw [hshape] at hac ⊢
    exact infix_trimL (by decide) (by decide) hac
  · intro s i hopen hclose
    apply extractThinking_no_pair
    simp only [hasThinkPair, hopen, hclose, Option.isSome_none]

/-- Witness for C10: a text with two pairs keeps the second pair verbatim in
the content, and a lone unmatched opening tag yields empty thinking with the
input unchanged. -/
theorem extractThinking_removes_first_pair_only_witness :
    (thinkOpen ++ "B".data ++ thinkClose) <:+:
      (extractThinking ("x" ++ "<think>" ++ "y" ++ "</think>" ++ "A<think>B</think>C")).2.data ∧
    extractThinking "<think>oops" = ("", "<think>oops") :=
  ⟨extractThinking_removes_first_pair_only.1 "x" "y" "A<think>B</think>C" "B"
      (by decide) (by decide) (by decide),
   extractThinking_removes_first_pair_only.2 "<think>oops" 0 (by decide) (by decide)⟩

/-- C5 counterexample: the source filter is
`s.status === COMPLETED && s.result`, so a Completed step whose result is the
(falsy) empty string contributes nothing — not even its description — to the
context, refuting "the description and final content of *every* prior step
with status Completed". -/
theorem historyContext_completed_empty_result_cex :
    ¬ ("Summarize the data".data <:+:
        (historyContext
          [⟨"Summarize the data", StepStatus.COMPLETED, some "", none⟩]).data) := by
  decide

/-- C5 (amended: restricted to Completed steps with a non-empty result):
(1) a step that is not Completed-with-non-empty-result contributes nothing —
deleting it anywhere leaves the context unchanged; (2) every kept step's
description and result appear in the context; (3) entries appear in original
order: for kept steps `s` before `t`, the context splits as `u ++ v` with
`s`'s entry inside `u` and `t`'s entry inside `v`; (4) the spec's concrete
scenario: with A Completed (result "X") and B, C still Pending, the context
contains A's description and "X" and nothing of C. -/
theorem historyContext_spec :
    (∀ (pre post : List WorkflowStep) (t : WorkflowStep), keepStep t = false →
      historyContext (pre ++ t :: post) = historyContext (pre ++ post)) ∧
    (∀ (steps : List WorkflowStep) (s : WorkflowStep), s ∈ steps → keepStep s = true →
      s.description.data <:+: (historyContext steps).data ∧
      (s.result.getD "").data <:+: (historyContext steps).data) ∧
    (∀ (l₁ l₂ l₃ : List WorkflowStep) (s t : WorkflowStep),
      keepStep s = true → keepStep t = true →
      ∃ u v, (historyContext (l₁ ++ s :: (l₂ ++ t :: l₃))).data = u ++ v ∧
        (stepEntry s).data <:+: u ∧ (stepEntry t).data <:+: v) ∧
    (containsStr (historyContext
        [⟨"Analyze the input", StepStatus.COMPLETED, some "X", none⟩,
         ⟨"Fix the bug", StepStatus.PENDING, none, none⟩,
         ⟨"Write the final report", StepStatus.PENDING, none, none⟩])
        "Analyze the input" = true ∧
     containsStr (historyContext
        [⟨"Analyze the input", StepStatus.COMPLETED, some "X", none⟩,
         ⟨"Fix the bug", StepStatus.PENDING, none, none⟩,
         ⟨"Write the final report", StepStatus.PENDING, none, none⟩])
        "X" = true ∧
     containsStr (historyContext
        [⟨"Analyze the input", StepStatus.COMPLETED, some "X", none⟩,
         ⟨"Fix the bug", StepStatus.PENDING, none, none⟩,
         ⟨"Write the final report", StepStatus.PENDING, none, none⟩])
        "Write the final report" = false) := by
  refine ⟨?_, ?_, ?_, by decide⟩
  · intro pre post t ht
    simp only [historyContext, List.filter_append, List.filter_cons, ht,
      Bool.false_eq_true, if_false]
  · intro steps s hs hkeep
    have hmem : (stepEntry s).data ∈ (steps.filter keepStep).map (fun x => (stepEntry x).data) :=
      List.mem_map_of_mem _ (List.mem_filter.mpr ⟨hs, hkeep⟩)
    have hentry : (stepEntry s).data <:+: (historyContext steps).data :=
      infix_joinSep _ _ _ hmem
    have hdesc : s.description.data <:+: (stepEntry s).data := by
      refine ⟨"PREVIOUS STEP: \"".data,
        ("\"\nRESULT: " ++ s.result.getD "" ++ "\n").data, ?_⟩
      simp only [stepEntry, data_append, List.append_assoc]
    have hres : (s.result.getD "").data <:+: (stepEntry s).data := by
      refine ⟨("PREVIOUS STEP: \"" ++ s.description ++ "\"\nRESULT: ").data, "\n".data, ?_⟩
      simp only [stepEntry, data_append, List.append_assoc]
    exact ⟨hdesc.trans hentry, hres.trans hentry⟩
  · intro l₁ l₂ l₃ s t hs ht
    have hfilter : List.filter keepStep (l₁ ++ s :: (l₂ ++ t :: l₃))
        = List.filter keepStep l₁ ++ s :: (List.filter keepStep l₂ ++ t :: List.filter keepStep l₃) := by
      simp [List.filter_append, List.filter_cons, hs, ht]
    have hmap : (List.filter keepStep (l₁ ++ s :: (l₂ ++ t :: l₃))).map
          (fun x => (stepEntry x).data)
        = ((List.filter keepStep l₁).map (fun x => (stepEntry x).data)
            ++ (stepEntry s).data :: (List.filter keepStep l₂).map (fun x => (stepEntry x).data))
          ++ ((stepEntry t).data :: (List.filter keepStep l₃).map (fun x => (stepEntry x).data)) := by
      rw [hfilter]
      simp [List.append_assoc]
    have hL₁ : ((List.filter keepStep l₁).map (fun x => (stepEntry x).data)
        ++ (stepEntry s).data :: (List.filter keepStep l₂).map (fun x => (stepEntry x).data)) ≠ [] := by
      simp
    have hL₂ : ((stepEntry t).data :: (List.filter keepStep l₃).map (fun x => (stepEntry x).data)) ≠ [] := by
      simp
    have hjoin := joinSep_append "\n---\n".data _ _ hL₁ hL₂
    refine ⟨joinSep "\n---\n".data ((List.filter keepStep l₁).map (fun x => (stepEntry x).data)
        ++ (stepEntry s).data :: (List.filter keepStep l₂).map (fun x => (stepEntry x).data))
        ++ "\n---\n".data,
      joinSep "\n---\n".data
        ((stepEntry t).data :: (List.filter keepStep l₃).map (fun x => (stepEntry x).data)),
      ?_, ?_, ?_⟩
    · show (joinSep "\n---\n".data ((List.filter keepStep (l₁ ++ s :: (l₂ ++ t :: l₃))).map
          (fun x => (stepEntry x).data))) = _
      rw [hmap, hjoin]
    · have hmem : (stepEntry s).data ∈ ((List.filter keepStep l₁).map (fun x => (stepEntry x).data)
          ++ (stepEntry s).data :: (List.filter keepStep l₂).map (fun x => (stepEntry x).data)) := by
        simp
      have h1 : (stepEntry s).data <:+: joinSep "\n---\n".data
          ((List.filter keepStep l₁).map (fun x => (stepEntry x).data)
            ++ (stepEntry s).data :: (List.filter keepStep l₂).map (fun x => (stepEntry x).data)) :=
        infix_joinSep _ _ _ hmem
      exact h1.trans ⟨[], "\n---\n".data, by simp⟩
    · exact infix_joinSep _ _ _ (by simp)

/-- Witness for C5: the three hypothetical parts applied at concrete steps. -/
theorem historyContext_spec_witness :
    historyContext [⟨"Fix the bug", StepStatus.PENDING, none, none⟩] = historyContext [] ∧
    "Analyze the input".data <:+:
      (historyContext [⟨"Analyze the input", StepStatus.COMPLETED, some "X", none⟩]).data ∧
    (∃ u v, (historyContext
        [⟨"First", StepStatus.COMPLETED, some "X", none⟩,
         ⟨"Second", StepStatus.COMPLETED, some "Y", none⟩]).data = u ++ v ∧
      (stepEntry ⟨"First", StepStatus.COMPLETED, some "X", none⟩).data <:+: u ∧
      (stepEntry ⟨"Second", StepStatus.COMPLETED, some "Y", none⟩).data <:+: v) :=
  ⟨historyContext_spec.1 [] [] ⟨"Fix the bug", StepStatus.PENDING, none, none⟩ (by decide),
   (historyContext_spec.2.1 [⟨"Analyze the input", StepStatus.COMPLETED, some "X", none⟩]
      ⟨"Analyze the input", StepStatus.COMPLETED, some "X", none⟩ (by simp) (by decide)).1,
   historyContext_spec.2.2.1 [] [] []
      ⟨"First", StepStatus.COMPLETED, some "X", none⟩
      ⟨"Second", StepStatus.COMPLETED, some "Y", none⟩ (by decide) (by decide)⟩

/-- C6 counterexample: when the reply contains no array literal,
`generateWorkflowPlan` does not throw — it returns the single-element
fallback plan — so `handleCreateWorkflow` *creates one step* from it, starts
execution, and surfaces no error, refuting "no workflow steps are created
… returns to idle … user-visible error message is surfaced". -/
theorem plan_no_array_creates_step_cex :
    (let out := handleCreateWorkflow (generateWorkflowPlanModel
        (Except.ok "Here are the steps I would take, but no JSON list.")
        (fun _ => Except.error "unused"))
     out.workflowSteps ≠ [] ∧ out.errorMsg = none ∧ out.isExecuting = true) := by
  decide

/-- C6 (amended): only when plan generation *throws* — the transport call
rejects, or a found array literal fails to parse — is the error surfaced
with an empty step list and idle state; when the reply contains no array
literal at all, a single fallback step "Failed to generate plan." is created
and execution starts on it with no error surfaced. -/
theorem handleCreateWorkflow_error_paths :
    (∀ (e : String) (parseJson : String → Except String (List String)),
      handleCreateWorkflow (generateWorkflowPlanModel (Except.error e) parseJson)
        = ⟨[], false, false, some planErrorMessage⟩) ∧
    (∀ (response : String) (parseJson : String → Except String (List String)) (jsonText e : String),
      extractArrayLit response = some jsonText → parseJson jsonText = Except.error e →
      handleCreateWorkflow (generateWorkflowPlanModel (Except.ok response) parseJson)
        = ⟨[], false, false, some planErrorMessage⟩) ∧
    (∀ (response : String) (parseJson : String → Except String (List String)),
      extractArrayLit response = none →
      handleCreateWorkflow (generateWorkflowPlanModel (Except.ok response) parseJson)
        = ⟨[⟨"Failed to generate plan.", StepStatus.PENDING, none, none⟩],
           false, true, none⟩) := by
  refine ⟨fun e parseJson => rfl, ?_, ?_⟩
  · intro response parseJson jsonText e hextract hparse
    simp only [generateWorkflowPlanModel, generateWorkflowPlanPost, hextract, hparse,
      handleCreateWorkflow]
  · intro response parseJson hextract
    simp only [generateWorkflowPlanModel, generateWorkflowPlanPost, hextract,
      handleCreateWorkflow, fallbackPlan, List.map]

/-- Witness for C6: the hypothetical parts applied at concrete inputs. -/
theorem handleCreateWorkflow_error_paths_witness :
    handleCreateWorkflow (generateWorkflowPlanModel (Except.error "boom")
        (fun _ => Except.ok []))
      = ⟨[], false, false, some planErrorMessage⟩ ∧
    handleCreateWorkflow (generateWorkflowPlanModel (Except.ok "prefix [\"a\"] suffix")
        (fun _ => Except.error "parse failure"))
      = ⟨[], false, false, some planErrorMessage⟩ ∧
    handleCreateWorkflow (generateWorkflowPlanModel (Except.ok "no array at all")
        (fun _ => Except.ok []))
      = ⟨[⟨"Failed to generate plan.", StepStatus.PENDING, none, none⟩], false, true, none⟩ :=
  ⟨handleCreateWorkflow_error_paths.1 "boom" (fun _ => Except.ok []),
   handleCreateWorkflow_error_paths.2.1 "prefix [\"a\"] suffix" (fun _ => Except.error "parse failure")
     "[\"a\"]" "parse failure" (by decide) rfl,
   handleCreateWorkflow_error_paths.2.2 "no array at all" (fun _ => Except.ok []) (by decide)⟩

/-- C7: when the reply contains no array literal the plan generator returns
the single-element fallback sequence instead of throwing; when an array
literal is found but its content is malformed, the parse error propagates to
the caller (`generateWorkflowPlan` rethrows), who shows the user-visible
error message and stays idle with an empty step list. -/
theorem generateWorkflowPlan_failure_modes :
    (∀ (response : String) (parseJson : String → Except String (List String)),
      extractArrayLit response = none →
      generateWorkflowPlanPost parseJson response = Except.ok ["Failed to generate plan."]) ∧
    (∀ (response jsonText e : String) (parseJson : String → Except String (List String)),
      extractArrayLit response = some jsonText → parseJson jsonText = Except.error e →
      generateWorkflowPlanPost parseJson response = Except.error e ∧
      handleCreateWorkflow (generateWorkflowPlanModel (Except.ok response) parseJson)
        = ⟨[], false, false, some planErrorMessage⟩) := by
  constructor
  · intro response parseJson hextract
    simp only [generateWorkflowPlanPost, hextract, fallbackPlan]
  · intro response jsonText e parseJson hextract hparse
    constructor
    · simp only [generateWorkflowPlanPost, hextract, hparse]
    · simp only [generateWorkflowPlanModel, generateWorkflowPlanPost, hextract, hparse,
        handleCreateWorkflow]

/-- Witness for C7: both failure modes at concrete inputs. -/
theorem generateWorkflowPlan_failure_modes_witness :
    generateWorkflowPlanPost (fun _ => Except.ok []) "no array here"
      = Except.ok ["Failed to generate plan."] ∧
    generateWorkflowPlanPost (fun _ => Except.error "bad json") "answer [,] done"
      = Except.error "bad json" :=
  ⟨generateWorkflowPlan_failure_modes.1 "no array here" (fun _ => Except.ok []) (by decide),
   (generateWorkflowPlan_failure_modes.2 "answer [,] done" "[,]" "bad json"
      (fun _ => Except.error "bad json") (by decide) rfl).1⟩

/-- The classification policy as the specification words it, for comparison
with the source's `getFileCategory`: known code/markup extension → "code";
else PDF media type or extension → "pdf"; else media type prefixed "image/"
→ "image"; else known document extension or media type containing "text" or
"document" → "document"; otherwise "unknown". -/
def getFileCategorySpec (filename type : String) : String :=
  if codeExts.contains (getExt filename) then "code"
  else if decide (type = "application/pdf") || decide (getExt filename = "pdf") then "pdf"
  else if startsWithStr type "image/" then "image"
  else if docExts.contains (getExt filename) || containsStr type "text"
      || containsStr type "document" then "document"
  else "unknown"

/-- C8: the source classification agrees with the stated precedence policy on
every file name and media type; in particular `main.cpp` is "code" regardless
of the declared media type, and — the earlier branches not applying —
`report.docx` with a media type containing "document" is "document". -/
theorem getFileCategory_follows_precedence :
    (∀ (filename type : String),
      getFileCategory filename type = getFileCategorySpec filename type) ∧
    (∀ type : String, getFileCategory "main.cpp" type = "code") ∧
    (∀ type : String, type ≠ "application/pdf" → startsWithStr type "image/" = false →
      containsStr type "document" = true →
      getFileCategory "report.docx" type = "document") := by
  refine ⟨fun filename type => rfl, fun type => rfl, ?_⟩
  intro type h1 h2 h3
  have h1' : decide (type = "application/pdf") = false := decide_eq_false h1
  have hext : getExt "report.docx" = "docx" := by decide
  have hc1 : codeExts.contains "docx" = false := by decide
  have hc2 : decide (("docx" : String) = "pdf") = false := by decide
  have hc3 : docExts.contains "docx" = true := by decide
  simp only [getFileCategory, hext, hc1, hc2, hc3, h1', h2, h3,
    Bool.false_eq_true, if_false, Bool.or_false, Bool.false_or, Bool.true_or,
    if_true]

/-- Witness for C8: a DOCX media type containing "document". -/
theorem getFileCategory_follows_precedence_witness :
    getFileCategory "report.docx"
      "application/vnd.openxmlformats-officedocument.wordprocessingml.document"
      = "document" :=
  getFileCategory_follows_precedence.2.2
    "application/vnd.openxmlformats-officedocument.wordprocessingml.document"
    (by decide) (by decide) (by decide)

/-- C9 counterexample: the lazy group of the code-block regex ends only at
the closing fence, so the extracted payload keeps the newline that precedes
it: the payload is `"print(1)\n"`, not `"print(1)"` as the claim states. -/
theorem extractCode_payload_cex :
    ¬ (extractCode "```python\nprint(1)\n```"
        = some ⟨"python", "print(1)"⟩) := by
  decide

/-- C9 (amended: the extracted payload is the inner text up to the closing
fence, trailing newline included): the fenced block yields language
`"python"` and payload `"print(1)\n"`, and the presence of a detected code
block suppresses report classification regardless of the step's description
wording or content length. -/
theorem extractCode_and_report_suppression :
    extractCode "```python\nprint(1)\n```" = some ⟨"python", "print(1)\n"⟩ ∧
    (∀ step : WorkflowStep, (stepCodeData step).isSome = true →
      isPotentialReport step = false) := by
  constructor
  · decide
  · intro step h
    have hnone : (stepCodeData step).isNone = false := by
      cases hcd : stepCodeData step with
      | none => rw [hcd] at h; simp at h
      | some cd => rfl
    simp only [isPotentialReport, hnone, Bool.false_and]

/-- Witness for C9: a completed step whose description says "report" and
whose content holds a fenced block is not classified as a report. -/
theorem extractCode_and_report_suppression_witness :
    isPotentialReport
      ⟨"Write the final report", StepStatus.COMPLETED,
       some "```python\nprint(1)\n```", none⟩ = false :=
  extractCode_and_report_suppression.2
    ⟨"Write the final report", StepStatus.COMPLETED,
     some "```python\nprint(1)\n```", none⟩ (by decide)

end AgentWorkflow
